import Mathlib

/-!
# Workout-plan execution sequencer: shallow embedding

Embedding of the `SupersetExecutorV3` engine
(src/scripts/simulate-group2-with-echo.mjs) and of the group-configuration
validator (`validateGroupConfiguration`, group-validation module).

Modelling conventions:
* JS numbers that the code reads with `Number(x) || d` are modelled as
  `Option Int`: `none` stands for a missing field or a non-numeric value
  (both make `Number(x)` the falsy `NaN`), and `some n` for a numeric
  value. Fractional values are out of scope of this development.
* A plan is a `List PlanItem`; indexing `planItems[i]` with `i` out of
  range yields JS `undefined`, modelled by the `i < plan.length` guards.
* The `completedSets` JS `Map` is modelled extensionally as a total
  function `Nat → Int`: `Map.get(i) || 0` reads `0` for any index the map
  does not hold, so the constructor-initialized map (all entries `0`) and
  the constant-zero function are observationally equal.
* JS `String.prototype.trim` is modelled by `WT.jsTrim`, which strips
  leading and trailing whitespace from the character list.
-/

namespace WT

/-- `String.prototype.trim`: strip leading and trailing whitespace. -/
def jsTrim (s : String) : String :=
  ⟨((s.data.dropWhile Char.isWhitespace).reverse.dropWhile
      Char.isWhitespace).reverse⟩

/-- A plan item. Fields the engine and validator never read (`type`,
`reps`) are omitted; every field they read is present. `none` = the field
is absent (JS `undefined`). -/
structure PlanItem where
  name : Option String := none
  sets : Option Int := none
  restSec : Option Int := none
  groupNumber : Option String := none
  deriving DecidableEq, Repr, Inhabited

/-- JS `Number(x) || d`: `none` (missing / non-numeric, i.e. `NaN`) and
the numeric value `0` are falsy and give the default `d`. -/
def numOr (v : Option Int) (d : Int) : Int :=
  match v with
  | none => d
  | some n => if n = 0 then d else n

/-- JS `s || d` on an optional string: missing and `""` are falsy. -/
def strOr (v : Option String) (d : String) : String :=
  match v with
  | none => d
  | some s => if s = "" then d else s

/-- The normalized group identifier of an item:
JS `item.groupNumber && String(item.groupNumber).trim()`, coalescing the
falsy results (`undefined`, `""`) with the all-blank case to `""`. -/
def itemGid (item : PlanItem) : String :=
  jsTrim (item.groupNumber.getD "")

/-- The engine's mutable state: the `completedSets` map, read through
`get(i) || 0` (see module comment). -/
def ExecState : Type := Nat → Int

/-- `initializeCompletionState`: every exercise starts with 0 completed
sets (and absent entries also read as 0). -/
def initState : ExecState := fun _ => 0

/-- `getTotalSets(itemIndex)`: `item ? Number(item.sets) || 1 : 0`. -/
def getTotalSets (plan : List PlanItem) (i : Nat) : Int :=
  if i < plan.length then numOr (plan.getD i default).sets 1 else 0

/-- `getCompletedSets(itemIndex)`: `completedSets.get(itemIndex) || 0`. -/
def getCompletedSets (s : ExecState) (i : Nat) : Int := s i

/-- `getRemainingSets(itemIndex)`: `Math.max(0, total - completed)`. -/
def getRemainingSets (plan : List PlanItem) (s : ExecState) (i : Nat) : Int :=
  max 0 (getTotalSets plan i - getCompletedSets s i)

/-- `completeSet(itemIndex)`: increment when `current < total`, silently
do nothing otherwise. -/
def completeSet (plan : List PlanItem) (s : ExecState) (i : Nat) : ExecState :=
  if getCompletedSets s i < getTotalSets plan i then
    fun j => if j = i then getCompletedSets s i + 1 else s j
  else s

/-- `isGrouped(itemIndex)`: the item exists and its trimmed group id is
non-blank. -/
def isGrouped (plan : List PlanItem) (i : Nat) : Bool :=
  if i < plan.length then itemGid (plan.getD i default) ≠ "" else false

/-- `getGroupExercises(groupNumber)`: `null`/`undefined` and blank ids
give `[]`; otherwise all indices in plan order whose trimmed group id
equals the trimmed query id. -/
def getGroupExercises (plan : List PlanItem) (groupNumber : Option String) :
    List Nat :=
  match groupNumber with
  | none => []
  | some g =>
      if jsTrim g = "" then []
      else (List.range plan.length).filter
        fun i => itemGid (plan.getD i default) = jsTrim g

/-- `findNextIncompleteExercise()`: first index with
`completed < Number(item.sets) || 1`, else `null`. -/
def findNextIncompleteExercise (plan : List PlanItem) (s : ExecState) :
    Option Nat :=
  (List.range plan.length).find? fun i =>
    getCompletedSets s i < getTotalSets plan i

/-- One member record of a `group-superset-start` result. -/
structure GroupInfo where
  index : Nat
  name : String
  totalSets : Int
  completedSets : Int
  remainingSets : Int
  deriving DecidableEq, Repr

/-- Result of `getNextAction()`. -/
inductive Action where
  | complete
  | exerciseStart (exerciseIndex : Nat) (setNumber : Int)
      (isSingleExercise : Bool) (groupSize : Nat)
  | groupSupersetStart (groupNumber : String)
      (groupExercises : List GroupInfo) (currentExerciseIndex : Nat)
  deriving DecidableEq, Repr

/-- The member record built by `getNextAction` for index `idx`. -/
def mkGroupInfo (plan : List PlanItem) (s : ExecState) (idx : Nat) :
    GroupInfo where
  index := idx
  name := strOr (plan.getD idx default).name "Exercise"
  totalSets := getTotalSets plan idx
  completedSets := getCompletedSets s idx
  remainingSets := getRemainingSets plan s idx

/-- JS `String(x)` on an optional string (only reached with `some _`
from `getNextAction`, where `isGrouped` has already held). -/
def jsString (v : Option String) : String :=
  match v with
  | none => "undefined"
  | some g => g

/-- `getNextAction()`. -/
def getNextAction (plan : List PlanItem) (s : ExecState) : Action :=
  match findNextIncompleteExercise plan s with
  | none => .complete
  | some nextIncomplete =>
      if ¬ isGrouped plan nextIncomplete then
        .exerciseStart nextIncomplete
          (getCompletedSets s nextIncomplete + 1) true 1
      else
        let groupNumber := (plan.getD nextIncomplete default).groupNumber
        let groupExercises := getGroupExercises plan groupNumber
        .groupSupersetStart (jsTrim (jsString groupNumber))
          (groupExercises.map (mkGroupInfo plan s)) nextIncomplete

/-- Result of `getNextGroupAction`. -/
inductive GroupAction where
  | groupComplete
  | nextExerciseInGroup (exerciseIndex : Nat) (setNumber : Int)
      (restSeconds : Option Int)
  deriving DecidableEq, Repr

/-- `getNextGroupAction(groupNumber)`. -/
def getNextGroupAction (plan : List PlanItem) (s : ExecState)
    (groupNumber : Option String) : GroupAction :=
  let groupExercises := getGroupExercises plan groupNumber
  let anyRemaining := groupExercises.any fun idx =>
    0 < getRemainingSets plan s idx
  if ¬ anyRemaining then .groupComplete
  else
    match groupExercises.find? (fun idx => 0 < getRemainingSets plan s idx)
      with
    | some idx => .nextExerciseInGroup idx (getCompletedSets s idx + 1) none
    | none => .groupComplete

/-- Result of `completeGroupRound`. -/
inductive RoundAction where
  | groupComplete
  | restThenContinue (exerciseIndex : Nat) (restSeconds : Int)
      (lastExerciseIndex : Nat)
  deriving DecidableEq, Repr

/-- `completeGroupRound(lastExerciseIndex, groupNumber)`. The rest is
`Number(lastItem?.restSec) || 60` (an out-of-range `lastExerciseIndex`
reads `undefined`); the resume index is `groupExercises[0]`, only read
when the member list is non-empty. -/
def completeGroupRound (plan : List PlanItem) (s : ExecState)
    (lastExerciseIndex : Nat) (groupNumber : Option String) : RoundAction :=
  let groupExercises := getGroupExercises plan groupNumber
  let anyRemaining := groupExercises.any fun idx =>
    0 < getRemainingSets plan s idx
  if ¬ anyRemaining then .groupComplete
  else
    let restSeconds :=
      if lastExerciseIndex < plan.length then
        numOr (plan.getD lastExerciseIndex default).restSec 60
      else numOr none 60
    .restThenContinue (groupExercises.headD 0) restSeconds lastExerciseIndex

/-- `reset()`: re-runs `initializeCompletionState`. -/
def reset : ExecState := initState

/-! ## Group-configuration validator -/

/-- One validator issue. The display strings (`message`, and the textual
annotation of each interleaved item) are presentation-only and are
abstracted away; `interleavedItems` keeps the indices the gap loop
pushes. -/
structure GroupIssue where
  severity : String
  groupId : String
  firstIndex : Nat
  lastIndex : Nat
  groupItemCount : Nat
  spaceOccupied : Nat
  interleavedItems : List Nat
  deriving DecidableEq, Repr

/-- Validator result (the summary `message` string is abstracted away). -/
structure ValidationResult where
  isValid : Bool
  issues : List GroupIssue
  deriving DecidableEq, Repr

/-- Keep the first occurrence of each element, in order, skipping
elements already `seen`: the `if (!groupMap.has(groupId))` insertion of
the validator's first pass (JS `Map` preserves insertion order). -/
def firstOccurAux (seen : List String) : List String → List String
  | [] => []
  | g :: rest =>
      if g ∈ seen then firstOccurAux seen rest
      else g :: firstOccurAux (g :: seen) rest

/-- Keep the first occurrence of each element, in order. -/
def firstOccur (l : List String) : List String := firstOccurAux [] l

/-- The distinct non-blank trimmed group ids of a plan, in
first-occurrence order: the keys of the validator's `groupMap`. -/
def planGids (plan : List PlanItem) : List String :=
  firstOccur (((List.range plan.length).map
    fun i => itemGid (plan.getD i default)).filter fun g => g ≠ "")

/-- The `indices` array of the validator's `groupMap` entry for `g`: all
positions whose trimmed group id is `g`, in plan order. Its head and
last element are the entry's `firstIndex` and `lastIndex`. -/
def groupIndices (plan : List PlanItem) (g : String) : List Nat :=
  (List.range plan.length).filter fun i => itemGid (plan.getD i default) = g

/-- The gap loop: every `i` with `firstIndex <= i <= lastIndex` such
that `!indices.includes(i)`. -/
def spanGaps (plan : List PlanItem) (g : String) : List Nat :=
  let idxs := groupIndices plan g
  let f := idxs.headD 0
  let l := idxs.getLastD 0
  (List.range' f (l + 1 - f)).filter fun i => ¬ i ∈ idxs

/-- The issue the validator's second pass emits for the group `g`, if
any: one `warning` issue exactly when
`indices.length !== lastIndex - firstIndex + 1`. -/
def mkIssue (plan : List PlanItem) (g : String) : Option GroupIssue :=
  let idxs := groupIndices plan g
  let f := idxs.headD 0
  let l := idxs.getLastD 0
  if idxs.length = l + 1 - f then none
  else some
    { severity := "warning", groupId := g, firstIndex := f, lastIndex := l,
      groupItemCount := idxs.length, spaceOccupied := l + 1 - f,
      interleavedItems := spanGaps plan g }

/-- `validateGroupConfiguration(planItems)` (the non-array guard is
outside the model; the empty-plan early return is kept). -/
def validateGroupConfiguration (plan : List PlanItem) : ValidationResult :=
  if plan.length = 0 then { isValid := true, issues := [] }
  else
    let issues := (planGids plan).filterMap (mkIssue plan)
    { isValid := issues.length = 0, issues := issues }

/-! ## Operations and reachable states

Each public method of `SupersetExecutorV3` is one `Op`. `applyOp` gives
the `completedSets` state after the call: the bodies of all methods
other than `completeSet` and `reset` contain no assignment to
`this.completedSets` (they only read it through `get`), so their cases
return the state unchanged; `completeSet` and `reset` are the two
mutators. -/

inductive Op where
  | completeSetOp (i : Nat)
  | resetOp
  | getNextActionOp
  | getGroupExercisesOp (g : Option String)
  | isGroupedOp (i : Nat)
  | getNextGroupActionOp (g : Option String)
  | completeGroupRoundOp (i : Nat) (g : Option String)
  | getTotalSetsOp (i : Nat)
  | getCompletedSetsOp (i : Nat)
  | getRemainingSetsOp (i : Nat)
  | findNextIncompleteExerciseOp
  | getStateOp
  deriving DecidableEq, Repr

/-- Read-only methods: all but `completeSet` and `reset`. -/
def Op.isQuery : Op → Bool
  | .completeSetOp _ => false
  | .resetOp => false
  | _ => true

/-- The `completedSets` state after one method call. -/
def applyOp (plan : List PlanItem) (s : ExecState) : Op → ExecState
  | .completeSetOp i => completeSet plan s i
  | .resetOp => reset
  | _ => s

/-- The state after a sequence of method calls. -/
def runOps (plan : List PlanItem) (s : ExecState) (ops : List Op) :
    ExecState :=
  ops.foldl (applyOp plan) s

/-- A state the engine can actually be in: reached from the
freshly-constructed engine by some sequence of method calls. -/
def Reachable (plan : List PlanItem) (s : ExecState) : Prop :=
  ∃ ops : List Op, runOps plan initState ops = s

/-- The domain of the data model (spec section 3): the `sets` field,
when numeric, is a non-negative integer, so that the coerced
`totalSets` is the positive integer the data model declares. -/
def WellFormed (plan : List PlanItem) : Prop :=
  ∀ item ∈ plan, ∀ n : Int, item.sets = some n → 0 ≤ n

/-- The state invariant: completed-set counts stay within
`0 .. totalSets` at every index. -/
def Inv (plan : List PlanItem) (s : ExecState) : Prop :=
  ∀ i, 0 ≤ s i ∧ s i ≤ getTotalSets plan i

/-! ## Concrete plans (from the repository's tests and simulations) -/

/-- The plan of the focused superset rest-duration test: two group-1
members interleaved with one ungrouped item. -/
def planA : List PlanItem :=
  [ { name := some "A1", sets := some 2, restSec := some 10,
      groupNumber := some "1" },
    { name := some "Ungrouped-X", sets := some 1, restSec := some 5 },
    { name := some "A2", sets := some 2, restSec := some 20,
      groupNumber := some "1" } ]

/-- The ungrouped item interleaved between the group-1 members of
`planA`. -/
def itemX : PlanItem :=
  { name := some "Ungrouped-X", sets := some 1, restSec := some 5 }

/-- `planA` with the interleaved ungrouped item removed. -/
def planC : List PlanItem :=
  [ { name := some "A1", sets := some 2, restSec := some 10,
      groupNumber := some "1" },
    { name := some "A2", sets := some 2, restSec := some 20,
      groupNumber := some "1" } ]

/-- A one-member group whose item carries `restSec = 0`. -/
def planZ : List PlanItem :=
  [ { sets := some 1, restSec := some 0, groupNumber := some "1" } ]

/-- The validator test plan: one member of group "2" between two members
of group "1", nothing else grouped. -/
def plan3 : List PlanItem :=
  [ { name := some "test1", sets := some 2, groupNumber := some "1" },
    { name := some "group2_item1", sets := some 2, groupNumber := some "2" },
    { name := some "test2", sets := some 2, groupNumber := some "1" } ]

/-- The state of `planA` after one completed set each of the two group-1
members (indices 0 and 2). -/
def stateA1 : ExecState := completeSet planA (completeSet planA initState 0) 2

/-! ## Supporting lemmas: totals -/

theorem getTotalSets_pos (plan : List PlanItem) (hwf : WellFormed plan)
    {i : Nat} (hi : i < plan.length) : 1 ≤ getTotalSets plan i := by
  unfold getTotalSets
  rw [if_pos hi]
  have hmem : plan.getD i default ∈ plan := by
    rw [List.getD_eq_getElem plan default hi]
    exact List.getElem_mem hi
  unfold numOr
  cases hsets : (plan.getD i default).sets with
  | none => exact le_refl 1
  | some n =>
      have hn : 0 ≤ n := hwf _ hmem n hsets
      by_cases h0 : n = 0
      · simp [h0]
      · simp only [if_neg h0]
        omega

theorem getTotalSets_of_ge (plan : List PlanItem) {i : Nat}
    (hi : plan.length ≤ i) : getTotalSets plan i = 0 := by
  unfold getTotalSets
  rw [if_neg (by omega)]

theorem getTotalSets_nonneg (plan : List PlanItem) (hwf : WellFormed plan)
    (i : Nat) : 0 ≤ getTotalSets plan i := by
  by_cases hi : i < plan.length
  · exact le_trans (by omega) (getTotalSets_pos plan hwf hi)
  · rw [getTotalSets_of_ge plan (by omega)]

/-! ## Supporting lemmas: states -/

theorem completeSet_mono (plan : List PlanItem) (s : ExecState) (i j : Nat) :
    s j ≤ completeSet plan s i j := by
  unfold completeSet getCompletedSets
  split
  · by_cases hji : j = i
    · subst hji; simp
    · simp [hji]
  · exact le_refl _

theorem completeSet_nonneg (plan : List PlanItem) {s : ExecState}
    (hs : ∀ j, 0 ≤ s j) (i j : Nat) : 0 ≤ completeSet plan s i j :=
  le_trans (hs j) (completeSet_mono plan s i j)

theorem applyOp_nonneg (plan : List PlanItem) {s : ExecState}
    (hs : ∀ j, 0 ≤ s j) (op : Op) (j : Nat) : 0 ≤ applyOp plan s op j := by
  cases op with
  | completeSetOp i => exact completeSet_nonneg plan hs i j
  | resetOp => exact le_refl 0
  | _ => exact hs j

theorem runOps_nonneg (plan : List PlanItem) (ops : List Op) :
    ∀ s : ExecState, (∀ j, 0 ≤ s j) → ∀ j, 0 ≤ runOps plan s ops j := by
  induction ops with
  | nil => intro s hs j; exact hs j
  | cons op rest ih =>
      intro s hs j
      exact ih (applyOp plan s op) (fun k => applyOp_nonneg plan hs op k) j

theorem reachable_nonneg {plan : List PlanItem} {s : ExecState}
    (h : Reachable plan s) (j : Nat) : 0 ≤ s j := by
  obtain ⟨ops, hops⟩ := h
  rw [← hops]
  exact runOps_nonneg plan ops initState (fun _ => le_refl 0) j

theorem inv_initState (plan : List PlanItem) (hwf : WellFormed plan) :
    Inv plan initState :=
  fun i => ⟨le_refl 0, getTotalSets_nonneg plan hwf i⟩

theorem inv_completeSet {plan : List PlanItem} {s : ExecState}
    (h : Inv plan s) (i : Nat) : Inv plan (completeSet plan s i) := by
  intro j
  refine ⟨le_trans (h j).1 (completeSet_mono plan s i j), ?_⟩
  unfold completeSet getCompletedSets
  split
  · by_cases hji : j = i
    · subst hji
      simp only [if_pos rfl]
      omega
    · simp only [if_neg hji]
      exact (h j).2
  · exact (h j).2

theorem inv_applyOp {plan : List PlanItem} {s : ExecState}
    (hwf : WellFormed plan) (h : Inv plan s) (op : Op) :
    Inv plan (applyOp plan s op) := by
  cases op with
  | completeSetOp i => exact inv_completeSet h i
  | resetOp => exact inv_initState plan hwf
  | _ => exact h

theorem inv_runOps (plan : List PlanItem) (hwf : WellFormed plan)
    (ops : List Op) : ∀ s : ExecState, Inv plan s →
      Inv plan (runOps plan s ops) := by
  induction ops with
  | nil => intro s hs; exact hs
  | cons op rest ih => intro s hs; exact ih _ (inv_applyOp hwf hs op)

theorem reachable_inv {plan : List PlanItem} {s : ExecState}
    (hwf : WellFormed plan) (h : Reachable plan s) : Inv plan s := by
  obtain ⟨ops, hops⟩ := h
  rw [← hops]
  exact inv_runOps plan hwf ops initState (inv_initState plan hwf)

/-! ## Supporting lemmas: searching index ranges -/

theorem find?_range'_eq_some {p : Nat → Bool} {i : Nat} :
    ∀ {n a : Nat}, ((List.range' a n).find? p = some i ↔
      a ≤ i ∧ i < a + n ∧ p i = true ∧
        ∀ j, a ≤ j → j < i → p j = false) := by
  intro n
  induction n with
  | zero =>
      intro a
      constructor
      · intro h
        simp [List.range'] at h
      · intro ⟨h1, h2, _⟩
        omega
  | succ n ih =>
      intro a
      rw [List.range'_succ, List.find?_cons]
      cases hpa : p a with
      | true =>
          simp only [Option.some.injEq]
          constructor
          · intro h
            subst h
            exact ⟨le_refl a, by omega, hpa, fun j h1 h2 => by omega⟩
          · intro ⟨h1, _, hpi, hall⟩
            by_contra hne
            have : a < i := by omega
            have := hall a (le_refl a) this
            rw [hpa] at this
            exact Bool.true_eq_false.mp this
      | false =>
          rw [ih]
          constructor
          · intro ⟨h1, h2, hpi, hall⟩
            refine ⟨by omega, by omega, hpi, fun j hj1 hj2 => ?_⟩
            by_cases hja : j = a
            · subst hja; exact hpa
            · exact hall j (by omega) hj2
          · intro ⟨h1, h2, hpi, hall⟩
            have hia : i ≠ a := by
              intro he
              subst he
              rw [hpi] at hpa
              exact Bool.true_eq_false.mp hpa
            exact ⟨by omega, by omega, hpi,
              fun j hj1 hj2 => hall j (by omega) hj2⟩

theorem find?_range_eq_some {p : Nat → Bool} {n i : Nat} :
    (List.range n).find? p = some i ↔
      i < n ∧ p i = true ∧ ∀ j < i, p j = false := by
  rw [List.range_eq_range', find?_range'_eq_some]
  constructor
  · intro ⟨_, h2, h3, h4⟩
    exact ⟨by omega, h3, fun j hj => h4 j (Nat.zero_le j) hj⟩
  · intro ⟨h1, h2, h3⟩
    exact ⟨Nat.zero_le i, by omega, h2, fun j _ hj => h3 j hj⟩

theorem find?_range_eq_none {p : Nat → Bool} {n : Nat} :
    (List.range n).find? p = none ↔ ∀ i < n, p i = false := by
  rw [List.find?_eq_none]
  constructor
  · intro h i hi
    have := h i (List.mem_range.mpr hi)
    exact Bool.not_eq_true _ |>.mp this
  · intro h i hi
    rw [h i (List.mem_range.mp hi)]
    exact Bool.false_ne_true

theorem findNextIncomplete_eq_some {plan : List PlanItem} {s : ExecState}
    {i : Nat} : findNextIncompleteExercise plan s = some i ↔
      i < plan.length ∧ getCompletedSets s i < getTotalSets plan i ∧
        ∀ j < i, getTotalSets plan j ≤ getCompletedSets s j := by
  unfold findNextIncompleteExercise
  rw [find?_range_eq_some]
  simp only [decide_eq_true_eq, decide_eq_false_iff_not, not_lt]

theorem findNextIncomplete_eq_none {plan : List PlanItem} {s : ExecState} :
    findNextIncompleteExercise plan s = none ↔
      ∀ i < plan.length, getTotalSets plan i ≤ getCompletedSets s i := by
  unfold findNextIncompleteExercise
  rw [find?_range_eq_none]
  simp only [decide_eq_false_iff_not, not_lt]

/-! ## Supporting lemmas: group membership -/

theorem mem_getGroupExercises {plan : List PlanItem} {g : String}
    (hg : jsTrim g ≠ "") {i : Nat} :
    i ∈ getGroupExercises plan (some g) ↔
      i < plan.length ∧ itemGid (plan.getD i default) = jsTrim g := by
  simp only [getGroupExercises]
  rw [if_neg hg]
  simp [List.mem_filter, List.mem_range]

theorem getGroupExercises_pairwise (plan : List PlanItem)
    (gn : Option String) : (getGroupExercises plan gn).Pairwise (· < ·) := by
  cases gn with
  | none => simp [getGroupExercises]
  | some g =>
      simp only [getGroupExercises]
      split
      · exact List.Pairwise.nil
      · exact (List.pairwise_lt_range plan.length).filter _

theorem getLastD_default_irrel {d d' : Nat} {l : List Nat} (hl : l ≠ []) :
    l.getLastD d = l.getLastD d' := by
  rw [List.getLastD_eq_getLast?, List.getLastD_eq_getLast?]
  cases h : l.getLast? with
  | none => exact absurd (List.getLast?_eq_none_iff.mp h) hl
  | some x => rfl

theorem headD_mem {l : List Nat} (hl : l ≠ []) : l.headD 0 ∈ l := by
  cases l with
  | nil => exact absurd rfl hl
  | cons a t => exact List.mem_cons_self a t

theorem getLastD_mem : ∀ {l : List Nat}, l ≠ [] → l.getLastD 0 ∈ l := by
  intro l
  induction l with
  | nil => intro h; exact absurd rfl h
  | cons a t ih =>
      intro _
      cases t with
      | nil => simp
      | cons b t' =>
          rw [List.getLastD_cons, getLastD_default_irrel (by simp)]
          exact List.mem_cons_of_mem a (ih (by simp))

theorem pairwise_headD_le {l : List Nat} (h : l.Pairwise (· < ·)) :
    ∀ x ∈ l, l.headD 0 ≤ x := by
  cases l with
  | nil => intro x hx; simp at hx
  | cons a t =>
      intro x hx
      rcases List.mem_cons.mp hx with hxa | hxt
      · subst hxa; exact le_refl x
      · exact le_of_lt ((List.pairwise_cons.mp h).1 x hxt)

theorem pairwise_le_getLastD : ∀ {l : List Nat}, l.Pairwise (· < ·) →
    ∀ x ∈ l, x ≤ l.getLastD 0 := by
  intro l
  induction l with
  | nil => intro _ x hx; simp at hx
  | cons a t ih =>
      intro h x hx
      obtain ⟨hat, ht⟩ := List.pairwise_cons.mp h
      cases t with
      | nil =>
          simp at hx
          simp [hx]
      | cons b t' =>
          rw [List.getLastD_cons, getLastD_default_irrel (by simp)]
          rcases List.mem_cons.mp hx with hxa | hxt
          · subst hxa
            exact le_of_lt (lt_of_lt_of_le (hat _ (List.mem_cons_self b t'))
              (ih ht _ (headD_mem (by simp))))
          · exact ih ht x hxt

/-- Selecting the items at the positions a predicate-on-items filter over
the index range keeps is the same as filtering the item list itself. -/
theorem filter_range_map_getD (p : List PlanItem) (q : PlanItem → Bool)
    (d : PlanItem) :
    ((List.range p.length).filter fun i => q (p.getD i d)).map
        (fun i => p.getD i d) = p.filter q := by
  induction p with
  | nil => simp
  | cons a t ih =>
      have key : ((List.range t.length).map Nat.succ).filter
            (fun i => q ((a :: t).getD i d)) =
          ((List.range t.length).filter (fun i => q (t.getD i d))).map
            Nat.succ := by
        rw [List.filter_map]
        rfl
      rw [List.length_cons, List.range_succ_eq_map, List.filter_cons, key]
      by_cases hqa : q a
      · rw [if_pos (by simpa using hqa), List.map_cons, List.map_map,
          List.filter_cons_of_pos hqa]
        refine congrArg₂ _ (by simp) ?_
        rw [show ((fun i => (a :: t).getD i d) ∘ Nat.succ) =
          fun i => t.getD i d from rfl]
        exact ih
      · rw [if_neg (by simpa using hqa), List.map_map,
          List.filter_cons_of_neg (by simpa using hqa)]
        rw [show ((fun i => (a :: t).getD i d) ∘ Nat.succ) =
          fun i => t.getD i d from rfl]
        exact ih

/-! ## Supporting lemmas: validator -/

theorem mem_firstOccurAux : ∀ {l seen : List String} {a : String},
    a ∈ firstOccurAux seen l ↔ a ∈ l ∧ a ∉ seen := by
  intro l
  induction l with
  | nil => intro seen a; simp [firstOccurAux]
  | cons g rest ih =>
      intro seen a
      simp only [firstOccurAux]
      by_cases hg : g ∈ seen
      · rw [if_pos hg, ih]
        constructor
        · intro ⟨h1, h2⟩
          exact ⟨List.mem_cons_of_mem g h1, h2⟩
        · intro ⟨h1, h2⟩
          rcases List.mem_cons.mp h1 with h | h
          · subst h; exact absurd hg h2
          · exact ⟨h, h2⟩
      · rw [if_neg hg]
        simp only [List.mem_cons, ih]
        constructor
        · rintro (h | ⟨h1, h2⟩)
          · subst h; exact ⟨Or.inl rfl, hg⟩
          · exact ⟨Or.inr h1, fun hs => h2 (Or.inr hs)⟩
        · rintro ⟨h | h, h2⟩
          · exact Or.inl h
          · by_cases hag : a = g
            · exact Or.inl hag
            · refine Or.inr ⟨h, ?_⟩
              rintro (h' | h')
              · exact hag h'
              · exact h2 h'

theorem nodup_firstOccurAux : ∀ {l seen : List String},
    (firstOccurAux seen l).Nodup := by
  intro l
  induction l with
  | nil => intro seen; exact List.nodup_nil
  | cons g rest ih =>
      intro seen
      simp only [firstOccurAux]
      by_cases hg : g ∈ seen
      · rw [if_pos hg]; exact ih
      · rw [if_neg hg]
        refine List.nodup_cons.mpr ⟨?_, ih⟩
        intro hmem
        exact (mem_firstOccurAux.mp hmem).2 (List.mem_cons_self g seen)

theorem nodup_planGids (plan : List PlanItem) : (planGids plan).Nodup :=
  nodup_firstOccurAux

theorem mem_planGids {plan : List PlanItem} {g : String} :
    g ∈ planGids plan ↔
      g ≠ "" ∧ ∃ i < plan.length, itemGid (plan.getD i default) = g := by
  unfold planGids firstOccur
  rw [mem_firstOccurAux]
  simp only [List.not_mem_nil, not_false_eq_true, and_true, List.mem_filter,
    List.mem_map, List.mem_range, decide_eq_true_eq]
  constructor
  · intro ⟨⟨i, hi, he⟩, hne⟩
    exact ⟨hne, i, hi, he⟩
  · intro ⟨hne, i, hi, he⟩
    exact ⟨⟨i, hi, he⟩, hne⟩

theorem mem_groupIndices {plan : List PlanItem} {g : String} {i : Nat} :
    i ∈ groupIndices plan g ↔
      i < plan.length ∧ itemGid (plan.getD i default) = g := by
  simp [groupIndices, List.mem_filter, List.mem_range]

theorem groupIndices_pairwise (plan : List PlanItem) (g : String) :
    (groupIndices plan g).Pairwise (· < ·) :=
  (List.pairwise_lt_range plan.length).filter _

theorem groupIndices_nodup (plan : List PlanItem) (g : String) :
    (groupIndices plan g).Nodup :=
  (groupIndices_pairwise plan g).imp fun h => Nat.ne_of_lt h

theorem groupIndices_ne_nil {plan : List PlanItem} {g : String}
    (h : g ∈ planGids plan) : groupIndices plan g ≠ [] := by
  obtain ⟨_, i, hi, he⟩ := mem_planGids.mp h
  intro hnil
  have : i ∈ groupIndices plan g := mem_groupIndices.mpr ⟨hi, he⟩
  rw [hnil] at this
  exact List.not_mem_nil i this

theorem groupIndices_headD_le_getLastD {plan : List PlanItem} {g : String}
    (h : groupIndices plan g ≠ []) :
    (groupIndices plan g).headD 0 ≤ (groupIndices plan g).getLastD 0 :=
  pairwise_le_getLastD (groupIndices_pairwise plan g) _ (headD_mem h)

theorem groupIndices_length_le (plan : List PlanItem) (g : String) :
    (groupIndices plan g).length ≤
      (groupIndices plan g).getLastD 0 + 1 - (groupIndices plan g).headD 0 := by
  classical
  have hnd := groupIndices_nodup plan g
  have hsub : ∀ x ∈ groupIndices plan g,
      x ∈ Finset.Icc ((groupIndices plan g).headD 0)
        ((groupIndices plan g).getLastD 0) := by
    intro x hx
    exact Finset.mem_Icc.mpr
      ⟨pairwise_headD_le (groupIndices_pairwise plan g) x hx,
       pairwise_le_getLastD (groupIndices_pairwise plan g) x hx⟩
  calc (groupIndices plan g).length
      = (groupIndices plan g).toFinset.card :=
        (List.toFinset_card_of_nodup hnd).symm
    _ ≤ (Finset.Icc ((groupIndices plan g).headD 0)
          ((groupIndices plan g).getLastD 0)).card :=
        Finset.card_le_card fun x hx => hsub x (List.mem_toFinset.mp hx)
    _ = (groupIndices plan g).getLastD 0 + 1 - (groupIndices plan g).headD 0 :=
        Nat.card_Icc _ _

theorem mem_spanGaps {plan : List PlanItem} {g : String} {j : Nat}
    (hfl : (groupIndices plan g).headD 0 ≤ (groupIndices plan g).getLastD 0) :
    j ∈ spanGaps plan g ↔
      (groupIndices plan g).headD 0 ≤ j ∧
      j ≤ (groupIndices plan g).getLastD 0 ∧
      j ∉ groupIndices plan g := by
  unfold spanGaps
  simp only [List.mem_filter, List.mem_range'_1, decide_eq_true_eq]
  constructor
  · intro ⟨⟨h1, h2⟩, h3⟩
    exact ⟨h1, by omega, h3⟩
  · intro ⟨h1, h2, h3⟩
    exact ⟨⟨h1, by omega⟩, h3⟩

theorem mkIssue_eq_none_iff {plan : List PlanItem} {g : String} :
    mkIssue plan g = none ↔
      (groupIndices plan g).length =
        (groupIndices plan g).getLastD 0 + 1 - (groupIndices plan g).headD 0 := by
  dsimp only [mkIssue]
  split
  · simp_all
  · simp_all

theorem mkIssue_eq_some {plan : List PlanItem} {g : String} {is : GroupIssue}
    (h : mkIssue plan g = some is) :
    is.severity = "warning" ∧ is.groupId = g ∧
    is.firstIndex = (groupIndices plan g).headD 0 ∧
    is.lastIndex = (groupIndices plan g).getLastD 0 ∧
    is.groupItemCount = (groupIndices plan g).length ∧
    is.spaceOccupied =
      (groupIndices plan g).getLastD 0 + 1 - (groupIndices plan g).headD 0 ∧
    is.interleavedItems = spanGaps plan g := by
  dsimp only [mkIssue] at h
  split at h
  · exact absurd h (by simp)
  · cases h
    exact ⟨rfl, rfl, rfl, rfl, rfl, rfl, rfl⟩

/-! ## Supporting lemmas: next-action dispatch -/

theorem getNextAction_of_none {plan : List PlanItem} {s : ExecState}
    (h : findNextIncompleteExercise plan s = none) :
    getNextAction plan s = .complete := by
  unfold getNextAction
  rw [h]

theorem getNextAction_of_grouped {plan : List PlanItem} {s : ExecState}
    {i : Nat} (h : findNextIncompleteExercise plan s = some i)
    (hg : isGrouped plan i = true) :
    getNextAction plan s = .groupSupersetStart
      (jsTrim (jsString (plan.getD i default).groupNumber))
      ((getGroupExercises plan (plan.getD i default).groupNumber).map
        (mkGroupInfo plan s)) i := by
  unfold getNextAction
  rw [h]
  simp [hg]

theorem getNextAction_of_ungrouped {plan : List PlanItem} {s : ExecState}
    {i : Nat} (h : findNextIncompleteExercise plan s = some i)
    (hg : isGrouped plan i = false) :
    getNextAction plan s =
      .exerciseStart i (getCompletedSets s i + 1) true 1 := by
  unfold getNextAction
  rw [h]
  simp [hg]

theorem isGrouped_iff {plan : List PlanItem} {i : Nat} :
    isGrouped plan i = true ↔
      i < plan.length ∧ itemGid (plan.getD i default) ≠ "" := by
  unfold isGrouped
  split
  · simp_all
  · simp_all

/-- A well-formedness certificate for a concrete plan, in a form `decide`
can evaluate. -/
theorem wellFormed_of_all {plan : List PlanItem}
    (h : (plan.all fun it =>
      match it.sets with
      | none => true
      | some n => decide (0 ≤ n)) = true) : WellFormed plan := by
  intro it hit n hn
  have := List.all_eq_true.mp h it hit
  rw [hn] at this
  exact of_decide_eq_true this

/-- Both branches of the validator produce the issue list computed by
the second pass over the group map. -/
theorem validate_eq (plan : List PlanItem) :
    validateGroupConfiguration plan =
      { isValid := ((planGids plan).filterMap (mkIssue plan)).length = 0,
        issues := (planGids plan).filterMap (mkIssue plan) } := by
  unfold validateGroupConfiguration
  split
  · rename_i h
    have hgids : planGids plan = [] := by
      unfold planGids firstOccur
      rw [h]
      rfl
    rw [hgids]
    simp
  · rfl

/-- Counting, in the image of a `filterMap` over a duplicate-free key
list, the issues carrying a given group id. -/
theorem countP_filterMap_groupId :
    ∀ {l : List String}, l.Nodup → ∀ (f : String → Option GroupIssue),
      (∀ g is, f g = some is → is.groupId = g) → ∀ g : String,
        ((l.filterMap f).countP fun is => is.groupId = g) =
          if g ∈ l ∧ (f g).isSome then 1 else 0 := by
  intro l
  induction l with
  | nil => intro _ f _ g; simp
  | cons a t ih =>
      intro hl f hf g
      obtain ⟨ha, ht⟩ := List.nodup_cons.mp hl
      rw [List.filterMap_cons]
      cases hfa : f a with
      | none =>
          rw [ih ht f hf g]
          by_cases hga : g = a
          · subst hga
            rw [if_neg (by simp [hfa]), if_neg (by simp [hfa])]
          · by_cases hgt : g ∈ t ∧ (f g).isSome
            · rw [if_pos hgt, if_pos ⟨List.mem_cons_of_mem a hgt.1, hgt.2⟩]
            · rw [if_neg hgt, if_neg (by
                intro ⟨h1, h2⟩
                rcases List.mem_cons.mp h1 with h | h
                · exact hga h
                · exact hgt ⟨h, h2⟩)]
      | some is =>
          have hgid : is.groupId = a := hf a is hfa
          rw [List.countP_cons, ih ht f hf g]
          by_cases hga : g = a
          · subst hga
            have h1 : ¬(g ∈ t ∧ (f g).isSome = true) := fun hc => ha hc.1
            have h2 : g ∈ g :: t ∧ (f g).isSome = true :=
              ⟨List.mem_cons_self g t, by rw [hfa]; rfl⟩
            rw [if_neg h1, if_pos h2]
            simp [hgid]
          · have hhead : decide (is.groupId = g) = false := by
              rw [hgid]
              exact decide_eq_false fun h => hga h.symm
            rw [hhead]
            have hmemiff : (g ∈ a :: t ∧ (f g).isSome = true) ↔
                (g ∈ t ∧ (f g).isSome = true) := by
              constructor
              · intro ⟨h1, h2⟩
                rcases List.mem_cons.mp h1 with h | h
                · exact absurd h hga
                · exact ⟨h, h2⟩
              · intro ⟨h1, h2⟩
                exact ⟨List.mem_cons_of_mem a h1, h2⟩
            rw [if_congr hmemiff rfl rfl]
            simp

/-- A strictly increasing list whose elements are exactly `b` is `[b]`. -/
theorem sorted_eq_singleton {l : List Nat} {b : Nat}
    (hs : l.Pairwise (· < ·)) (hmem : ∀ x, x ∈ l ↔ x = b) : l = [b] := by
  cases l with
  | nil => exact absurd ((hmem b).mpr rfl) (List.not_mem_nil b)
  | cons x t =>
      have hx : x = b := (hmem x).mp (List.mem_cons_self x t)
      subst hx
      cases t with
      | nil => rfl
      | cons y t' =>
          have hy : y = x :=
            (hmem y).mp (List.mem_cons_of_mem _ (List.mem_cons_self y t'))
          obtain ⟨hlt, _⟩ := List.pairwise_cons.mp hs
          have := hlt y (List.mem_cons_self y t')
          omega

/-- A strictly increasing list whose elements are exactly `a` and `c`
with `a < c` is `[a, c]`. -/
theorem sorted_eq_pair {l : List Nat} {a c : Nat}
    (hs : l.Pairwise (· < ·)) (hac : a < c)
    (hmem : ∀ x, x ∈ l ↔ x = a ∨ x = c) : l = [a, c] := by
  cases l with
  | nil => exact absurd ((hmem a).mpr (Or.inl rfl)) (List.not_mem_nil a)
  | cons x t =>
      obtain ⟨hxt, ht⟩ := List.pairwise_cons.mp hs
      have hx : x = a := by
        rcases (hmem x).mp (List.mem_cons_self x t) with h | h
        · exact h
        · subst h
          rcases List.mem_cons.mp ((hmem a).mpr (Or.inl rfl)) with h' | h'
          · omega
          · have := hxt a h'
            omega
      subst hx
      have hct : c ∈ t := by
        rcases List.mem_cons.mp ((hmem c).mpr (Or.inr rfl)) with h | h
        · omega
        · exact h
      cases t with
      | nil => simp at hct
      | cons y t' =>
          obtain ⟨hyt, ht'⟩ := List.pairwise_cons.mp ht
          have hy : y = c := by
            rcases (hmem y).mp
              (List.mem_cons_of_mem _ (List.mem_cons_self y t')) with h | h
            · have := hxt y (List.mem_cons_self y t')
              omega
            · exact h
          subst hy
          cases t' with
          | nil => rfl
          | cons z t'' =>
              have hzmem : z ∈ y :: z :: t'' :=
                List.mem_cons_of_mem _ (List.mem_cons_self z t'')
              have hz2 := hyt z (List.mem_cons_self z t'')
              rcases (hmem z).mp (List.mem_cons_of_mem _ hzmem) with h | h
              · have := hxt z hzmem
                omega
              · omega

/-! ## Claims -/

/-- C3: on every well-formed plan and reachable engine state,
`getNextAction()` returns the complete action exactly when every item's
completed-set count equals its (coerced) total; in particular the empty
plan always yields the complete action. -/
theorem C3_complete_iff (plan : List PlanItem) (hwf : WellFormed plan)
    (s : ExecState) (hr : Reachable plan s) :
    (getNextAction plan s = Action.complete ↔
      ∀ i < plan.length, getCompletedSets s i = getTotalSets plan i) ∧
    ∀ s' : ExecState, getNextAction [] s' = Action.complete := by
  constructor
  · constructor
    · intro h
      cases hfind : findNextIncompleteExercise plan s with
      | none =>
          intro i hi
          have h1 := findNextIncomplete_eq_none.mp hfind i hi
          have h2 := (reachable_inv hwf hr i).2
          unfold getCompletedSets at h1 ⊢
          omega
      | some i =>
          have hne : getNextAction plan s ≠ Action.complete := by
            cases hgi : isGrouped plan i with
            | true => rw [getNextAction_of_grouped hfind hgi]; simp
            | false => rw [getNextAction_of_ungrouped hfind hgi]; simp
          exact absurd h hne
    · intro h
      exact getNextAction_of_none
        (findNextIncomplete_eq_none.mpr fun i hi => le_of_eq (h i hi).symm)
  · intro s'
    rfl

/-- C3 witness: on the fully-completed three-item test plan the engine
reports completion. -/
theorem C3_witness :
    getNextAction planA
      (runOps planA initState
        [.completeSetOp 0, .completeSetOp 2, .completeSetOp 0,
         .completeSetOp 2, .completeSetOp 1]) = Action.complete :=
  (C3_complete_iff planA (wellFormed_of_all (by decide))
      (runOps planA initState
        [.completeSetOp 0, .completeSetOp 2, .completeSetOp 0,
         .completeSetOp 2, .completeSetOp 1]) ⟨_, rfl⟩).1.mpr (by decide)

/-- C4: `completeGroupRound` returns group-complete exactly when no
current member of the group still has remaining sets; otherwise it
resumes at the first group member in plan order; blank, absent and
unknown group ids (empty member list) immediately yield group-complete. -/
theorem C4_round_outcome (plan : List PlanItem) (s : ExecState)
    (lastIdx : Nat) (gn : Option String) :
    (completeGroupRound plan s lastIdx gn = RoundAction.groupComplete ↔
      ∀ j ∈ getGroupExercises plan gn, ¬ 0 < getRemainingSets plan s j) ∧
    ((∃ j ∈ getGroupExercises plan gn, 0 < getRemainingSets plan s j) →
      ∃ r : Int, completeGroupRound plan s lastIdx gn =
        RoundAction.restThenContinue
          ((getGroupExercises plan gn).headD 0) r lastIdx ∧
        (getGroupExercises plan gn).headD 0 ∈ getGroupExercises plan gn ∧
        ∀ k ∈ getGroupExercises plan gn,
          (getGroupExercises plan gn).headD 0 ≤ k) ∧
    (getGroupExercises plan gn = [] →
      completeGroupRound plan s lastIdx gn = RoundAction.groupComplete) ∧
    (gn = none →
      completeGroupRound plan s lastIdx gn = RoundAction.groupComplete) ∧
    (∀ g : String, gn = some g → jsTrim g = "" →
      completeGroupRound plan s lastIdx gn = RoundAction.groupComplete) := by
  have hany : (getGroupExercises plan gn).any
      (fun idx => 0 < getRemainingSets plan s idx) = true ↔
      ∃ j ∈ getGroupExercises plan gn, 0 < getRemainingSets plan s j := by
    simp [List.any_eq_true]
  refine ⟨?_, ?_, ?_, ?_, ?_⟩
  · dsimp only [completeGroupRound]
    by_cases hc : ∃ j ∈ getGroupExercises plan gn, 0 < getRemainingSets plan s j
    · rw [if_neg (by rw [hany]; exact fun h => h hc)]
      constructor
      · intro h
        exact absurd h (by simp)
      · intro h
        obtain ⟨j, hj, hjr⟩ := hc
        exact absurd hjr (h j hj)
    · rw [if_pos (by rw [hany]; exact hc)]
      constructor
      · intro _ j hj hjr
        exact hc ⟨j, hj, hjr⟩
      · intro _
        rfl
  · intro hc
    dsimp only [completeGroupRound]
    rw [if_neg (by rw [hany]; exact fun h => h hc)]
    refine ⟨_, rfl, ?_, ?_⟩
    · refine headD_mem ?_
      obtain ⟨j, hj, _⟩ := hc
      intro hnil
      rw [hnil] at hj
      exact List.not_mem_nil j hj
    · exact pairwise_headD_le (getGroupExercises_pairwise plan gn)
  · intro hge
    dsimp only [completeGroupRound]
    rw [if_pos (by rw [hany, hge]; simp)]
  · intro hgn
    subst hgn
    rfl
  · intro g hgn hblank
    subst hgn
    dsimp only [completeGroupRound]
    rw [if_pos ?_]
    rw [hany]
    rintro ⟨j, hj, _⟩
    simp only [getGroupExercises] at hj
    rw [if_pos hblank] at hj
    exact List.not_mem_nil j hj

/-- C4 witness: a round for an unknown group id on the test plan is
immediately group-complete. -/
theorem C4_witness :
    completeGroupRound planA initState 5 (some "zzz") =
      RoundAction.groupComplete :=
  (C4_round_outcome planA initState 5 (some "zzz")).1.mpr (by decide)

/-- C5: on every well-formed plan, reachable completed-set counts stay
within `0 .. totalSets`; `completeSet` never decreases any count,
increments the target by exactly one while below the total, and is a
no-op at the total. -/
theorem C5_completedSets_bounds (plan : List PlanItem) (hwf : WellFormed plan)
    (s : ExecState) (hr : Reachable plan s) (i : Nat) :
    (0 ≤ getCompletedSets s i ∧
      getCompletedSets s i ≤ getTotalSets plan i) ∧
    (∀ j, getCompletedSets s j ≤ getCompletedSets (completeSet plan s i) j) ∧
    (getCompletedSets s i < getTotalSets plan i →
      getCompletedSets (completeSet plan s i) i = getCompletedSets s i + 1 ∧
      ∀ j, j ≠ i →
        getCompletedSets (completeSet plan s i) j = getCompletedSets s j) ∧
    (getCompletedSets s i = getTotalSets plan i → completeSet plan s i = s) := by
  refine ⟨reachable_inv hwf hr i, completeSet_mono plan s i, ?_, ?_⟩
  · intro hlt
    constructor
    · unfold completeSet
      rw [if_pos hlt]
      simp [getCompletedSets]
    · intro j hj
      unfold completeSet
      rw [if_pos hlt]
      simp [getCompletedSets, hj]
  · intro heq
    unfold completeSet
    rw [if_neg (by omega)]

/-- C5 witness at the test plan's initial state and index 0. -/
theorem C5_witness :
    (0 ≤ getCompletedSets initState 0 ∧
      getCompletedSets initState 0 ≤ getTotalSets planA 0) ∧
    (∀ j, getCompletedSets initState j ≤
      getCompletedSets (completeSet planA initState 0) j) ∧
    (getCompletedSets initState 0 < getTotalSets planA 0 →
      getCompletedSets (completeSet planA initState 0) 0 =
        getCompletedSets initState 0 + 1 ∧
      ∀ j, j ≠ 0 →
        getCompletedSets (completeSet planA initState 0) j =
          getCompletedSets initState j) ∧
    (getCompletedSets initState 0 = getTotalSets planA 0 →
      completeSet planA initState 0 = initState) :=
  C5_completedSets_bounds planA (wellFormed_of_all (by decide))
    initState ⟨[], rfl⟩ 0

/-- C9: every read-only method call leaves the completed-sets state
unchanged; a state change can only come from `completeSet` or `reset`;
`reset` returns every entry to zero. -/
theorem C9_frame (plan : List PlanItem) (s : ExecState) (op : Op) :
    (op.isQuery = true → applyOp plan s op = s) ∧
    (applyOp plan s Op.resetOp = fun _ => 0) ∧
    (applyOp plan s op ≠ s → op.isQuery = false) := by
  refine ⟨?_, rfl, ?_⟩
  · intro hq
    cases op with
    | completeSetOp i => exact absurd hq (by simp [Op.isQuery])
    | resetOp => exact absurd hq (by simp [Op.isQuery])
    | _ => rfl
  · intro hne
    cases op with
    | completeSetOp i => rfl
    | resetOp => rfl
    | _ => exact absurd rfl hne

/-- C9 witness: a `getNextAction` call on the test plan leaves the state
unchanged. -/
theorem C9_witness :
    applyOp planA initState Op.getNextActionOp = initState ∧
    Op.getNextActionOp.isQuery = true :=
  ⟨(C9_frame planA initState Op.getNextActionOp).1 rfl, rfl⟩

/-- C10: calling `completeSet` with an index outside the plan leaves any
reachable engine state unchanged (the total is 0, so the increment guard
cannot fire), hence later `getNextAction` and `completeGroupRound`
results are unaffected. -/
theorem C10_out_of_range (plan : List PlanItem) (s : ExecState)
    (hr : Reachable plan s) (i : Nat) (hi : plan.length ≤ i) :
    completeSet plan s i = s ∧
    getNextAction plan (completeSet plan s i) = getNextAction plan s ∧
    ∀ (l : Nat) (gn : Option String),
      completeGroupRound plan (completeSet plan s i) l gn =
        completeGroupRound plan s l gn := by
  have h0 : completeSet plan s i = s := by
    unfold completeSet
    rw [getTotalSets_of_ge plan hi]
    rw [if_neg (show ¬ getCompletedSets s i < 0 from
      not_lt.mpr (reachable_nonneg hr i))]
  exact ⟨h0, by rw [h0], fun l gn => by rw [h0]⟩

/-- C2 counterexample: an item whose `restSec` is present and numeric
with value 0 still yields a rest of 60 seconds (JS `|| 60` treats 0 as
falsy), contradicting the claim that the value 0 is kept. -/
theorem C2_counterexample :
    (planZ.getD 0 default).restSec = some 0 ∧
    0 < getRemainingSets planZ initState 0 ∧
    completeGroupRound planZ initState 0 (some "1") =
      RoundAction.restThenContinue 0 60 0 ∧
    (60 : Int) ≠ 0 := by decide

/-- C2 amended: the rest-then-continue rest equals the `restSec` of the
item at `lastCompletedIndex` when that value is present, numeric and
non-zero, and is 60 when it is missing, non-numeric, zero, or the index
is out of range — independent of every other group member. -/
theorem C2_rest_seconds (plan : List PlanItem) (s : ExecState)
    (lastIdx : Nat) (gn : Option String) (j : Nat) (r : Int) (l : Nat)
    (h : completeGroupRound plan s lastIdx gn =
      RoundAction.restThenContinue j r l) :
    (∀ v : Int, lastIdx < plan.length →
      (plan.getD lastIdx default).restSec = some v → v ≠ 0 → r = v) ∧
    ((plan.length ≤ lastIdx ∨ (plan.getD lastIdx default).restSec = none ∨
      (plan.getD lastIdx default).restSec = some 0) → r = 60) ∧
    l = lastIdx := by
  dsimp only [completeGroupRound] at h
  split at h
  · exact absurd h (by simp)
  · rw [RoundAction.restThenContinue.injEq] at h
    obtain ⟨-, hre, hl⟩ := h
    refine ⟨?_, ?_, hl.symm⟩
    · intro v hlen hv hv0
      rw [← hre, if_pos hlen, hv]
      simp [numOr, hv0]
    · intro hcase
      rcases hcase with hlen | hnone | hzero
      · rw [← hre, if_neg (by omega)]
        rfl
      · by_cases hlen : lastIdx < plan.length
        · rw [← hre, if_pos hlen, hnone]
          rfl
        · rw [← hre, if_neg hlen]
          rfl
      · by_cases hlen : lastIdx < plan.length
        · rw [← hre, if_pos hlen, hzero]
          rfl
        · rw [← hre, if_neg hlen]
          rfl

/-- C2 witness: after one round of the interleaved test plan, the rest
taken from the last-completed member (index 2, `restSec = 20`) is 20. -/
theorem C2_witness :
    (∀ v : Int, 2 < planA.length →
      (planA.getD 2 default).restSec = some v → v ≠ 0 → (20 : Int) = v) ∧
    ((planA.length ≤ 2 ∨ (planA.getD 2 default).restSec = none ∨
      (planA.getD 2 default).restSec = some 0) → (20 : Int) = 60) ∧
    (2 : Nat) = 2 :=
  C2_rest_seconds planA stateA1 2 (some "1") 0 20 2 (by decide)

/-- C1: whenever the lowest-index incomplete item is grouped,
`getNextAction` returns a group-superset-start carrying the item's
trimmed group id, the member records of exactly the whole group in
strictly increasing plan order (fully-completed and not-yet-reached
members included, items of other groups or of no group excluded), each
with its totals, and the incomplete item itself as start index. -/
theorem C1_group_superset_start (plan : List PlanItem) (s : ExecState)
    (i : Nat) (hfind : findNextIncompleteExercise plan s = some i)
    (hgrp : isGrouped plan i = true) :
    getNextAction plan s = Action.groupSupersetStart
      (itemGid (plan.getD i default))
      ((getGroupExercises plan (plan.getD i default).groupNumber).map
        (mkGroupInfo plan s)) i ∧
    (((getGroupExercises plan (plan.getD i default).groupNumber).map
        (mkGroupInfo plan s)).map GroupInfo.index).Pairwise (· < ·) ∧
    (∀ j, (j ∈ ((getGroupExercises plan
        (plan.getD i default).groupNumber).map
          (mkGroupInfo plan s)).map GroupInfo.index) ↔
      j < plan.length ∧
        itemGid (plan.getD j default) = itemGid (plan.getD i default)) ∧
    (∀ m ∈ (getGroupExercises plan (plan.getD i default).groupNumber).map
        (mkGroupInfo plan s),
      m.totalSets = getTotalSets plan m.index ∧
      m.completedSets = getCompletedSets s m.index ∧
      m.remainingSets = getRemainingSets plan s m.index) ∧
    (i ∈ ((getGroupExercises plan (plan.getD i default).groupNumber).map
        (mkGroupInfo plan s)).map GroupInfo.index) ∧
    getCompletedSets s i < getTotalSets plan i ∧
    (∀ j < i, getTotalSets plan j ≤ getCompletedSets s j) := by
  obtain ⟨hlen, hgid⟩ := isGrouped_iff.mp hgrp
  obtain ⟨g, hgn⟩ : ∃ g, (plan.getD i default).groupNumber = some g := by
    cases hgn : (plan.getD i default).groupNumber with
    | none =>
        exfalso
        apply hgid
        unfold itemGid
        rw [hgn]
        rfl
    | some g => exact ⟨g, rfl⟩
  have hgideq : itemGid (plan.getD i default) = jsTrim g := by
    unfold itemGid
    rw [hgn]
    rfl
  have hmapidx : ∀ (ge : List Nat),
      (ge.map (mkGroupInfo plan s)).map GroupInfo.index = ge := by
    intro ge
    rw [List.map_map]
    have hcomp : (GroupInfo.index ∘ mkGroupInfo plan s) = id := rfl
    rw [hcomp, List.map_id]
  refine ⟨?_, ?_, ?_, ?_, ?_, ?_, ?_⟩
  · rw [getNextAction_of_grouped hfind hgrp, hgn, hgideq]
    rfl
  · rw [hmapidx]
    rw [hgn]
    exact getGroupExercises_pairwise plan (some g)
  · intro j
    rw [hmapidx, hgn, hgideq]
    exact mem_getGroupExercises (hgideq ▸ hgid)
  · intro m hm
    obtain ⟨idx, -, rfl⟩ := List.mem_map.mp hm
    exact ⟨rfl, rfl, rfl⟩
  · rw [hmapidx, hgn]
    exact (mem_getGroupExercises (hgideq ▸ hgid)).mpr ⟨hlen, hgideq⟩
  · exact (findNextIncomplete_eq_some.mp hfind).2.1
  · exact (findNextIncomplete_eq_some.mp hfind).2.2

/-- C1 witness: at the fresh state of the interleaved test plan the
engine starts the whole of group "1" (indices 0 and 2), beginning at
index 0. -/
theorem C1_witness :
    getNextAction planA initState = Action.groupSupersetStart
      (itemGid (planA.getD 0 default))
      ((getGroupExercises planA (planA.getD 0 default).groupNumber).map
        (mkGroupInfo planA initState)) 0 ∧
    (((getGroupExercises planA (planA.getD 0 default).groupNumber).map
        (mkGroupInfo planA initState)).map GroupInfo.index).Pairwise
      (· < ·) ∧
    (∀ j, (j ∈ ((getGroupExercises planA
        (planA.getD 0 default).groupNumber).map
          (mkGroupInfo planA initState)).map GroupInfo.index) ↔
      j < planA.length ∧
        itemGid (planA.getD j default) = itemGid (planA.getD 0 default)) ∧
    (∀ m ∈ (getGroupExercises planA (planA.getD 0 default).groupNumber).map
        (mkGroupInfo planA initState),
      m.totalSets = getTotalSets planA m.index ∧
      m.completedSets = getCompletedSets initState m.index ∧
      m.remainingSets = getRemainingSets planA initState m.index) ∧
    (0 ∈ ((getGroupExercises planA (planA.getD 0 default).groupNumber).map
        (mkGroupInfo planA initState)).map GroupInfo.index) ∧
    getCompletedSets initState 0 < getTotalSets planA 0 ∧
    (∀ j < 0, getTotalSets planA j ≤ getCompletedSets initState j) :=
  C1_group_superset_start planA initState 0 (by decide) (by decide)

/-- C6 counterexample: the presence of one ungrouped item between the
two members of group "1" does change the returned index list — `[0, 2]`
with the interleaved item present versus `[0, 1]` without it — so the
index set is not interleaving-invariant. -/
theorem C6_counterexample :
    itemGid itemX = "" ∧
    planA = planC.take 1 ++ [itemX] ++ planC.drop 1 ∧
    getGroupExercises planA (some "1") = [0, 2] ∧
    getGroupExercises planC (some "1") = [0, 1] ∧
    ([0, 2] : List Nat) ≠ [0, 1] := by decide

/-- C6 amended: `getGroupExercises` returns exactly the indices whose
trimmed group id equals the trimmed query id (case-sensitive), in
strictly increasing plan order, and the empty list for a blank or absent
id; the *items* selected and their relative order — though not their
numeric indices — are unchanged by inserting or removing ungrouped items
between the group's members. -/
theorem C6_group_selection (plan : List PlanItem) (g : String)
    (hg : jsTrim g ≠ "") :
    (∀ i, i ∈ getGroupExercises plan (some g) ↔
      i < plan.length ∧ itemGid (plan.getD i default) = jsTrim g) ∧
    (getGroupExercises plan (some g)).Pairwise (· < ·) ∧
    (∀ b : String, jsTrim b = "" → ∀ p : List PlanItem,
      getGroupExercises p (some b) = []) ∧
    (∀ p : List PlanItem, getGroupExercises p none = []) ∧
    ((getGroupExercises plan (some g)).map (fun i => plan.getD i default) =
      plan.filter fun it => itemGid it = jsTrim g) ∧
    (∀ p₁ p₂ : List PlanItem, ∀ x : PlanItem, itemGid x = "" →
      (getGroupExercises (p₁ ++ x :: p₂) (some g)).map
          (fun i => (p₁ ++ x :: p₂).getD i default) =
        (getGroupExercises (p₁ ++ p₂) (some g)).map
          (fun i => (p₁ ++ p₂).getD i default)) := by
  have hsel : ∀ p : List PlanItem,
      (getGroupExercises p (some g)).map (fun i => p.getD i default) =
        p.filter fun it => itemGid it = jsTrim g := by
    intro p
    simp only [getGroupExercises]
    rw [if_neg hg]
    exact filter_range_map_getD p
      (fun it => decide (itemGid it = jsTrim g)) default
  refine ⟨fun i => mem_getGroupExercises hg,
    getGroupExercises_pairwise plan (some g), ?_, fun p => rfl, hsel plan, ?_⟩
  · intro b hb p
    simp only [getGroupExercises]
    rw [if_pos hb]
  · intro p₁ p₂ x hx
    rw [hsel, hsel]
    have hxf : (decide (itemGid x = jsTrim g)) = false := by
      rw [hx]
      exact decide_eq_false fun h => hg h.symm
    simp [List.filter_append, List.filter_cons, hxf]

/-- C6 witness: the characterization instantiated on the interleaved
test plan and group "1". -/
theorem C6_witness :
    (∀ i, i ∈ getGroupExercises planA (some "1") ↔
      i < planA.length ∧ itemGid (planA.getD i default) = jsTrim "1") ∧
    (getGroupExercises planA (some "1")).Pairwise (· < ·) ∧
    (∀ b : String, jsTrim b = "" → ∀ p : List PlanItem,
      getGroupExercises p (some b) = []) ∧
    (∀ p : List PlanItem, getGroupExercises p none = []) ∧
    ((getGroupExercises planA (some "1")).map
        (fun i => planA.getD i default) =
      planA.filter fun it => itemGid it = jsTrim "1") ∧
    (∀ p₁ p₂ : List PlanItem, ∀ x : PlanItem, itemGid x = "" →
      (getGroupExercises (p₁ ++ x :: p₂) (some "1")).map
          (fun i => (p₁ ++ x :: p₂).getD i default) =
        (getGroupExercises (p₁ ++ p₂) (some "1")).map
          (fun i => (p₁ ++ p₂).getD i default)) :=
  C6_group_selection planA "1" (by decide)

/-- C7: the validator emits exactly one warning issue per group whose
member count is strictly below its span length, each issue listing
exactly the non-member indices inside the span; validity is emptiness of
the issue list; plans whose groups are all contiguous (the empty plan
included) validate cleanly. -/
theorem C7_validator (plan : List PlanItem) :
    (∀ is ∈ (validateGroupConfiguration plan).issues,
      is.severity = "warning") ∧
    (∀ g : String,
      ((validateGroupConfiguration plan).issues.countP
        fun is => is.groupId = g) =
        if g ∈ planGids plan ∧ (groupIndices plan g).length <
            (groupIndices plan g).getLastD 0 + 1 -
              (groupIndices plan g).headD 0
        then 1 else 0) ∧
    (∀ is ∈ (validateGroupConfiguration plan).issues,
      is.interleavedItems = spanGaps plan is.groupId ∧
      ∀ j, j ∈ is.interleavedItems ↔
        is.firstIndex ≤ j ∧ j ≤ is.lastIndex ∧
          itemGid (plan.getD j default) ≠ is.groupId) ∧
    ((validateGroupConfiguration plan).isValid = true ↔
      (validateGroupConfiguration plan).issues = []) ∧
    ((∀ g ∈ planGids plan, (groupIndices plan g).length =
        (groupIndices plan g).getLastD 0 + 1 -
          (groupIndices plan g).headD 0) →
      (validateGroupConfiguration plan).isValid = true ∧
      (validateGroupConfiguration plan).issues = []) ∧
    validateGroupConfiguration ([] : List PlanItem) =
      { isValid := true, issues := [] } := by
  have hissues : (validateGroupConfiguration plan).issues =
      (planGids plan).filterMap (mkIssue plan) := by
    rw [validate_eq]
  have hvalid : (validateGroupConfiguration plan).isValid =
      decide (((planGids plan).filterMap (mkIssue plan)).length = 0) := by
    rw [validate_eq]
  refine ⟨?_, ?_, ?_, ?_, ?_, by decide⟩
  · intro is hmem
    rw [hissues] at hmem
    obtain ⟨g, -, hg⟩ := List.mem_filterMap.mp hmem
    exact (mkIssue_eq_some hg).1
  · intro g
    rw [hissues, countP_filterMap_groupId (nodup_planGids plan)
      (mkIssue plan) (fun g' is h => (mkIssue_eq_some h).2.1) g]
    refine if_congr (and_congr_right fun _ => ?_) rfl rfl
    rw [Option.isSome_iff_ne_none]
    constructor
    · intro hne
      have hne2 : (groupIndices plan g).length ≠
          (groupIndices plan g).getLastD 0 + 1 -
            (groupIndices plan g).headD 0 :=
        fun h => hne (mkIssue_eq_none_iff.mpr h)
      have hle := groupIndices_length_le plan g
      omega
    · intro hlt hnone
      have := mkIssue_eq_none_iff.mp hnone
      omega
  · intro is hmem
    rw [hissues] at hmem
    obtain ⟨g, hgmem, hg⟩ := List.mem_filterMap.mp hmem
    obtain ⟨-, hgid, hfirst, hlast, -, -, hitems⟩ := mkIssue_eq_some hg
    have hne : groupIndices plan g ≠ [] := groupIndices_ne_nil hgmem
    have hfl : (groupIndices plan g).headD 0 ≤
        (groupIndices plan g).getLastD 0 :=
      groupIndices_headD_le_getLastD hne
    have hlastlen : (groupIndices plan g).getLastD 0 < plan.length :=
      (mem_groupIndices.mp (getLastD_mem hne)).1
    constructor
    · rw [hitems, hgid]
    · intro j
      rw [hitems, hgid, hfirst, hlast, mem_spanGaps hfl]
      constructor
      · intro ⟨h1, h2, h3⟩
        refine ⟨h1, h2, fun he => h3 (mem_groupIndices.mpr ⟨?_, he⟩)⟩
        omega
      · intro ⟨h1, h2, h3⟩
        refine ⟨h1, h2, fun hmem' => h3 (mem_groupIndices.mp hmem').2⟩
  · rw [hissues, hvalid]
    simp
  · intro hcont
    have hnil : (planGids plan).filterMap (mkIssue plan) = [] :=
      List.filterMap_eq_nil_iff.mpr fun g hg =>
        mkIssue_eq_none_iff.mpr (hcont g hg)
    rw [hissues, hvalid, hnil]
    simp

/-- C7 witness: the interleaved three-item validator test plan carries
exactly one issue for group "1". -/
theorem C7_witness :
    ((validateGroupConfiguration plan3).issues.countP
      fun is => is.groupId = "1") = 1 := by
  have h := (C7_validator plan3).2.1 "1"
  rw [if_pos (by decide)] at h
  exact h

/-- C8 counterexample: on the plan with exactly one group-2 member
between two group-1 members (and nothing else grouped) the validator
emits no issue at all for group "2" — its single-index span is
contiguous — contradicting the claimed one issue per group. -/
theorem C8_counterexample :
    itemGid (plan3.getD 0 default) = "1" ∧
    itemGid (plan3.getD 1 default) = "2" ∧
    itemGid (plan3.getD 2 default) = "1" ∧
    ((validateGroupConfiguration plan3).issues.countP
      fun is => is.groupId = "2") = 0 ∧
    (validateGroupConfiguration plan3).issues.length = 1 := by decide

/-- C8 amended: for a plan in which exactly one member of group "2" is
placed between two members of group "1" and nothing else is grouped, the
validator produces exactly one issue, for group "1", citing the foreign
group-2 index inside group 1's span; group "2", occupying a single
index, is contiguous and gets no issue. -/
theorem C8_single_foreign_member (plan : List PlanItem) (a b c : Nat)
    (hab : a < b) (hbc : b < c) (hc : c < plan.length)
    (ha1 : itemGid (plan.getD a default) = "1")
    (hb2 : itemGid (plan.getD b default) = "2")
    (hc1 : itemGid (plan.getD c default) = "1")
    (hrest : ∀ j < plan.length, j ≠ a → j ≠ b → j ≠ c →
      itemGid (plan.getD j default) = "") :
    ((validateGroupConfiguration plan).issues.countP
      fun is => is.groupId = "1") = 1 ∧
    ((validateGroupConfiguration plan).issues.countP
      fun is => is.groupId = "2") = 0 ∧
    ∀ is ∈ (validateGroupConfiguration plan).issues,
      is.groupId = "1" ∧ b ∈ is.interleavedItems := by
  have hg1 : groupIndices plan "1" = [a, c] := by
    refine sorted_eq_pair (groupIndices_pairwise plan "1") (by omega) ?_
    intro x
    rw [mem_groupIndices]
    constructor
    · intro ⟨hx, hgx⟩
      by_cases hxa : x = a
      · exact Or.inl hxa
      by_cases hxc : x = c
      · exact Or.inr hxc
      by_cases hxb : x = b
      · subst hxb
        exact absurd (hb2.symm.trans hgx) (by decide)
      · exact absurd ((hrest x hx hxa hxb hxc).symm.trans hgx) (by decide)
    · rintro (rfl | rfl)
      · exact ⟨by omega, ha1⟩
      · exact ⟨hc, hc1⟩
  have hg2 : groupIndices plan "2" = [b] := by
    refine sorted_eq_singleton (groupIndices_pairwise plan "2") ?_
    intro x
    rw [mem_groupIndices]
    constructor
    · intro ⟨hx, hgx⟩
      by_cases hxb : x = b
      · exact hxb
      by_cases hxa : x = a
      · subst hxa
        exact absurd (ha1.symm.trans hgx) (by decide)
      by_cases hxc : x = c
      · subst hxc
        exact absurd (hc1.symm.trans hgx) (by decide)
      · exact absurd ((hrest x hx hxa hxb hxc).symm.trans hgx) (by decide)
    · rintro rfl
      exact ⟨by omega, hb2⟩
  have hS1 : (mkIssue plan "1").isSome = true := by
    rw [Option.isSome_iff_ne_none]
    intro hnone
    have hh := mkIssue_eq_none_iff.mp hnone
    rw [hg1] at hh
    have h1 : ([a, c] : List Nat).length = 2 := rfl
    have h2 : ([a, c] : List Nat).getLastD 0 = c := rfl
    have h3 : ([a, c] : List Nat).headD 0 = a := rfl
    rw [h1, h2, h3] at hh
    omega
  have hN2 : mkIssue plan "2" = none := by
    rw [mkIssue_eq_none_iff, hg2]
    have h1 : ([b] : List Nat).length = 1 := rfl
    have h2 : ([b] : List Nat).getLastD 0 = b := rfl
    have h3 : ([b] : List Nat).headD 0 = b := rfl
    rw [h1, h2, h3]
    omega
  have hmem1 : "1" ∈ planGids plan :=
    mem_planGids.mpr ⟨by decide, a, by omega, ha1⟩
  have hissues : (validateGroupConfiguration plan).issues =
      (planGids plan).filterMap (mkIssue plan) := by
    rw [validate_eq]
  have hcount := fun g => countP_filterMap_groupId (nodup_planGids plan)
    (mkIssue plan) (fun g' is h => (mkIssue_eq_some h).2.1) g
  refine ⟨?_, ?_, ?_⟩
  · rw [hissues, hcount "1", if_pos ⟨hmem1, hS1⟩]
  · rw [hissues, hcount "2", if_neg ?_]
    rintro ⟨-, hs⟩
    rw [hN2] at hs
    exact Bool.false_ne_true hs
  · intro is hmem
    rw [hissues] at hmem
    obtain ⟨g, hgmem, hg⟩ := List.mem_filterMap.mp hmem
    obtain ⟨hgne, i, hi, hgi⟩ := mem_planGids.mp hgmem
    have hg12 : g = "1" ∨ g = "2" := by
      by_cases hia : i = a
      · subst hia; exact Or.inl (hgi.symm.trans ha1)
      by_cases hib : i = b
      · subst hib; exact Or.inr (hgi.symm.trans hb2)
      by_cases hic : i = c
      · subst hic; exact Or.inl (hgi.symm.trans hc1)
      · exact absurd (hgi.symm.trans (hrest i hi hia hib hic)) hgne
    rcases hg12 with rfl | rfl
    · refine ⟨(mkIssue_eq_some hg).2.1, ?_⟩
      have hitems := (mkIssue_eq_some hg).2.2.2.2.2.2
      rw [hitems]
      have hfl : (groupIndices plan "1").headD 0 ≤
          (groupIndices plan "1").getLastD 0 := by
        rw [hg1]
        show a ≤ ([a, c] : List Nat).getLastD 0
        have h2 : ([a, c] : List Nat).getLastD 0 = c := rfl
        omega
      rw [mem_spanGaps hfl, hg1]
      have h2 : ([a, c] : List Nat).getLastD 0 = c := rfl
      have h3 : ([a, c] : List Nat).headD 0 = a := rfl
      rw [h2, h3]
      refine ⟨by omega, by omega, ?_⟩
      intro hmem'
      rcases List.mem_cons.mp hmem' with h | h
      · omega
      · rcases List.mem_cons.mp h with h' | h'
        · omega
        · exact List.not_mem_nil b h'
    · rw [hN2] at hg
      exact absurd hg (by simp)

/-- C8 witness: the amended statement instantiated on the three-item
validator test plan. -/
theorem C8_witness :
    ((validateGroupConfiguration plan3).issues.countP
      fun is => is.groupId = "1") = 1 ∧
    ((validateGroupConfiguration plan3).issues.countP
      fun is => is.groupId = "2") = 0 ∧
    ∀ is ∈ (validateGroupConfiguration plan3).issues,
      is.groupId = "1" ∧ 1 ∈ is.interleavedItems :=
  C8_single_foreign_member plan3 0 1 2 (by decide) (by decide) (by decide)
    (by decide) (by decide) (by decide) (by decide)

/-- C10 witness: index 7 is outside the three-item test plan. -/
theorem C10_witness :
    completeSet planA initState 7 = initState ∧
    getNextAction planA (completeSet planA initState 7) =
      getNextAction planA initState ∧
    ∀ (l : Nat) (gn : Option String),
      completeGroupRound planA (completeSet planA initState 7) l gn =
        completeGroupRound planA initState l gn :=
  C10_out_of_range planA initState ⟨[], rfl⟩ 7 (by decide)

end WT
